import Mathlib

/-!
# Verification of the aisearch-v2 frontier structures and step/snapshot contract

Shallow embedding of `src/PriorityQueue.py` (classes `PriorityQueue`, `Queue`,
`Stack`) and of the search-execution control flow of `src/main.py`
(`GraphVisualizer.start_search`, `capture_search_state`,
`update_search_results`), together with proofs about them.

Modelling conventions:
* Python node objects are identified by their id; we use `String`.
* Priorities are modelled as `Int` (only comparisons matter to the code).
* The Python `heapq` module is modelled by its documented contract: the heap
  is kept as a list sorted by the lexicographic order on `(priority, count)`
  (`heappush` = ordered insertion, `heappop` = take the head, `heap[0]` =
  the minimum).  Entry triples `[priority, count, node]` never compare at the
  third component because counts are unique.
* The in-place mutation `entry[-1] = self.REMOVED` on the list object shared
  between `heap` and `entry_finder` is modelled by rewriting the heap entry
  with the matching insertion count (counts are unique in reachable states,
  which the well-formedness invariant `PQ.WF` records).
* Python exceptions become an `Except` error channel.
-/

/-- Python `KeyError` / `IndexError`, the two exceptions raised in
`src/PriorityQueue.py`. -/
inductive PyErr where
  | keyError
  | indexError
deriving DecidableEq, Repr

/-- Node identifiers (Python `Node` objects are used only as dict keys /
list elements by the frontier structures). -/
abbrev NodeId := String

/-- The third slot of a heap entry: either a live node or the
`'<removed-task>'` placeholder written by `PriorityQueue.remove`. -/
inductive Item where
  | node (n : NodeId)
  | removed
deriving DecidableEq, Repr

/-- A heap entry `[priority, count, node]` as built by `PriorityQueue.push`. -/
structure Entry where
  priority : Int
  count : Nat
  item : Item
deriving DecidableEq, Repr

/-- The node of a live entry, `none` for a tombstone. -/
def Entry.liveNode (e : Entry) : Option NodeId :=
  match e.item with
  | .node n => some n
  | .removed => none

/-- `true` iff the entry has not been tombstoned. -/
def Entry.isLive (e : Entry) : Bool :=
  e.liveNode.isSome

/-- Heap order on entries: lexicographic on `(priority, count)`.  This is how
Python compares the lists `[priority, count, node]`, the node slot never
being reached because counts are unique. -/
def entryLE (a b : Entry) : Prop :=
  a.priority < b.priority ∨ (a.priority = b.priority ∧ a.count ≤ b.count)

instance : DecidableRel entryLE := fun _ _ =>
  inferInstanceAs (Decidable (_ ∨ _ ∧ _))

instance : IsTotal Entry entryLE :=
  ⟨by intro a b; unfold entryLE; omega⟩

instance : IsTrans Entry entryLE :=
  ⟨by intro a b c; unfold entryLE; omega⟩

/-- Lookup in the `entry_finder` dict, keyed by node.  Values are the
`(priority, count)` of the node's live entry. -/
def efLookup : List (NodeId × Int × Nat) → NodeId → Option (Int × Nat)
  | [], _ => none
  | (k, v) :: t, n => if k = n then some v else efLookup t n

/-- `dict.pop(node)`: delete the binding of `n` (the first one; keys are
unique in reachable states). -/
def efErase : List (NodeId × Int × Nat) → NodeId → List (NodeId × Int × Nat)
  | [], _ => []
  | (k, v) :: t, n => if k = n then t else (k, v) :: efErase t n

/-- State of a `PriorityQueue` instance (`src/PriorityQueue.py`, lines
19-24): the heap list, the tie-break counter, and the `entry_finder` dict
(modelled as an insertion-ordered association list). -/
structure PQ where
  heap : List Entry
  counter : Nat
  entry_finder : List (NodeId × Int × Nat)
deriving DecidableEq, Repr

/-- `PriorityQueue.__init__`. -/
def PQ.init : PQ := ⟨[], 0, []⟩

/-- The in-place `entry[-1] = self.REMOVED`: rewrite the heap entry with
insertion count `c` (unique in reachable states) to a tombstone. -/
def tombstone (c : Nat) (heap : List Entry) : List Entry :=
  heap.map fun e => if e.count = c then { e with item := Item.removed } else e

/-- The state change shared by `remove` and the replace branch of `push`:
pop `node` from `entry_finder` and tombstone its heap entry. -/
def PQ.removeEntry (pq : PQ) (node : NodeId) (pc : Int × Nat) : PQ :=
  { pq with
    entry_finder := efErase pq.entry_finder node
    heap := tombstone pc.2 pq.heap }

/-- `PriorityQueue.remove` (lines 43-54): `KeyError` if absent, else
tombstone. -/
def PQ.remove (pq : PQ) (node : NodeId) : Except PyErr PQ :=
  match efLookup pq.entry_finder node with
  | none => .error .keyError
  | some pc => .ok (pq.removeEntry node pc)

/-- `PriorityQueue.push` (lines 26-41): remove any existing entry for the
node, then insert a fresh entry `[priority, counter, node]` into the heap
and record it in `entry_finder`. -/
def PQ.push (pq : PQ) (node : NodeId) (priority : Int) : PQ :=
  let pq1 :=
    match efLookup pq.entry_finder node with
    | some pc => pq.removeEntry node pc
    | none => pq
  { heap := pq1.heap.orderedInsert entryLE ⟨priority, pq1.counter, .node node⟩
    counter := pq1.counter + 1
    entry_finder := pq1.entry_finder ++ [(node, (priority, pq1.counter))] }

/-- The `while self.heap` loop of `PriorityQueue.pop`: discard tombstones
from the front, return the first live node and the remaining heap. -/
def popFirstLive : List Entry → Option (NodeId × List Entry)
  | [] => none
  | e :: rest =>
    match e.item with
    | .removed => popFirstLive rest
    | .node n => some (n, rest)

/-- `PriorityQueue.pop` (lines 56-71): pop heap entries until a live one is
found (deleting it from `entry_finder`), else `KeyError`. -/
def PQ.pop (pq : PQ) : Except PyErr (NodeId × PQ) :=
  match popFirstLive pq.heap with
  | none => .error .keyError
  | some (n, rest) =>
    .ok (n, { pq with heap := rest, entry_finder := efErase pq.entry_finder n })

/-- The `while self.heap` loop of `PriorityQueue.peek`: pop tombstones off
the front, report the first live node without removing it. -/
def peekAux : List Entry → Option NodeId × List Entry
  | [] => (none, [])
  | e :: rest =>
    match e.item with
    | .removed => peekAux rest
    | .node n => (some n, e :: rest)

/-- `PriorityQueue.peek` (lines 73-85): returns the minimum live node, or
`none` when no live entry remains; physically pops tombstones it skips. -/
def PQ.peek (pq : PQ) : Option NodeId × PQ :=
  let r := peekAux pq.heap
  (r.1, { pq with heap := r.2 })

/-- `PriorityQueue.is_empty` (lines 87-94): `len(self.entry_finder) == 0`. -/
def PQ.is_empty (pq : PQ) : Bool :=
  pq.entry_finder.length == 0

/-- `PriorityQueue.__len__` (lines 96-103): `len(self.entry_finder)`. -/
def PQ.size (pq : PQ) : Nat :=
  pq.entry_finder.length

/-- `PriorityQueue.__contains__` (lines 105-115): `node in self.entry_finder`. -/
def PQ.contains (pq : PQ) (node : NodeId) : Bool :=
  (efLookup pq.entry_finder node).isSome

/-- `PriorityQueue.clear` (lines 127-131). -/
def PQ.clear (_pq : PQ) : PQ := ⟨[], 0, []⟩

/-- The bindings `(node, (priority, count))` of the live heap entries, in
heap order. -/
def liveBindings (heap : List Entry) : List (NodeId × Int × Nat) :=
  heap.filterMap fun e => e.liveNode.map fun n => (n, (e.priority, e.count))

/-- Number of non-tombstoned heap entries. -/
def liveCount (heap : List Entry) : Nat :=
  (heap.filter Entry.isLive).length

/-- Well-formedness invariant of a `PriorityQueue` state, maintained by all
its operations: the heap is sorted (the `heapq` contract), insertion counts
are pairwise distinct and dominated by `counter`, `entry_finder` has unique
keys, and `entry_finder` holds exactly the bindings of the live heap
entries. -/
def PQ.WF (pq : PQ) : Prop :=
  pq.heap.Sorted entryLE ∧
  (pq.heap.map Entry.count).Nodup ∧
  (∀ e ∈ pq.heap, e.count < pq.counter) ∧
  (pq.entry_finder.map Prod.fst).Nodup ∧
  (∀ kv ∈ pq.entry_finder, kv ∈ liveBindings pq.heap) ∧
  (∀ kv ∈ liveBindings pq.heap, kv ∈ pq.entry_finder)

instance (pq : PQ) : Decidable (PQ.WF pq) := by
  unfold PQ.WF List.Sorted
  infer_instance

/-- The `PriorityQueue` states reachable from a fresh instance through the
mutating operations named by the invariant claim: `push`, `remove`, `pop`
and `clear` (`remove` and `pop` contribute only when they succeed; on
failure they raise before mutating). -/
inductive PQ.Reachable : PQ → Prop where
  | init : PQ.Reachable PQ.init
  | push {pq : PQ} (n : NodeId) (p : Int) :
      PQ.Reachable pq → PQ.Reachable (pq.push n p)
  | remove {pq pq2 : PQ} (n : NodeId) :
      PQ.Reachable pq → pq.remove n = Except.ok pq2 → PQ.Reachable pq2
  | pop {pq pq2 : PQ} {n : NodeId} :
      PQ.Reachable pq → pq.pop = Except.ok (n, pq2) → PQ.Reachable pq2
  | clear {pq : PQ} : PQ.Reachable pq → PQ.Reachable pq.clear

/-- State of a `Queue` instance (`src/PriorityQueue.py`, lines 134-141). -/
structure Queue where
  items : List NodeId
deriving DecidableEq, Repr

/-- `Queue.__init__`. -/
def Queue.init : Queue := ⟨[]⟩

/-- `Queue.push` (lines 143-145): append to the end. -/
def Queue.push (q : Queue) (item : NodeId) : Queue :=
  ⟨q.items ++ [item]⟩

/-- `Queue.pop` (lines 147-151): `IndexError` on empty, else remove and
return the front item (`self.items.pop(0)`). -/
def Queue.pop (q : Queue) : Except PyErr (NodeId × Queue) :=
  match q.items with
  | [] => .error .indexError
  | x :: rest => .ok (x, ⟨rest⟩)

/-- `Queue.peek` (lines 153-157): front item, or `None` when empty. -/
def Queue.peek (q : Queue) : Option NodeId :=
  q.items.head?

/-- `Queue.is_empty` (lines 159-161). -/
def Queue.is_empty (q : Queue) : Bool :=
  q.items.length == 0

/-- Fold a sequence of `push` calls over a queue. -/
def Queue.pushAll (q : Queue) (xs : List NodeId) : Queue :=
  xs.foldl Queue.push q

/-- State of a `Stack` instance (`src/PriorityQueue.py`, lines 180-187). -/
structure Stack where
  items : List NodeId
deriving DecidableEq, Repr

/-- `Stack.__init__`. -/
def Stack.init : Stack := ⟨[]⟩

/-- `Stack.push` (lines 189-191): append to the end. -/
def Stack.push (s : Stack) (item : NodeId) : Stack :=
  ⟨s.items ++ [item]⟩

/-- `Stack.pop` (lines 193-197): `IndexError` on empty, else remove and
return the last item (`self.items.pop()`). -/
def Stack.pop (s : Stack) : Except PyErr (NodeId × Stack) :=
  match s.items.getLast? with
  | none => .error .indexError
  | some x => .ok (x, ⟨s.items.dropLast⟩)

/-- `Stack.peek` (lines 199-203): last item, or `None` when empty. -/
def Stack.peek (s : Stack) : Option NodeId :=
  s.items.getLast?

/-- `Stack.is_empty` (lines 205-207). -/
def Stack.is_empty (s : Stack) : Bool :=
  s.items.length == 0

/-- Fold a sequence of `push` calls over a stack. -/
def Stack.pushAll (s : Stack) (xs : List NodeId) : Stack :=
  xs.foldl Stack.push s

/-!
## The search-execution control flow of `src/main.py`

`GraphVisualizer` drives a `SearchAgent` (imported from `SearchAgent.py`,
which is not among the sources here; only the agent fields that
`main.py` reads are modelled, as an opaque record of values). -/

/-- The `{g, h, f}` record displayed for the last-processed vertex
(`current_node_info`, read by `restore_search_state` at lines 938-940). -/
structure CurrentInfo where
  g : Int
  h : Int
  f : Int
deriving DecidableEq, Repr

/-- The `SearchAgent` fields read by `GraphVisualizer.capture_search_state`
(lines 918-927) and `update_search_results` (lines 1076-1093). -/
structure AgentState where
  fringe_list : List NodeId
  visited_list : List NodeId
  traversal_array : List NodeId
  path_found : List NodeId
  current_node_info : CurrentInfo
  success : Bool
  path_cost : Int
  nodes_explored : Nat
deriving DecidableEq, Repr

/-- The dictionary built by `GraphVisualizer.capture_search_state`
(`src/main.py`, lines 918-927): keys `fringe`, `visited`, `traversal`,
`path`, `node_states`, `current_info`. `node_states` holds the per-node
presentation tags of the visualizer. -/
structure Snapshot where
  fringe : List NodeId
  visited : List NodeId
  traversal : List NodeId
  path : List NodeId
  node_states : List (NodeId × String)
  current_info : CurrentInfo
deriving DecidableEq, Repr

/-- `GraphVisualizer.capture_search_state` (lines 918-927). -/
def capture_search_state (agent : AgentState)
    (nodeStates : List (NodeId × String)) : Snapshot :=
  { fringe := agent.fringe_list
    visited := agent.visited_list
    traversal := agent.traversal_array
    path := agent.path_found
    node_states := nodeStates
    current_info := agent.current_node_info }

/-- One observation point of the search generator loop in `start_search`:
the agent state and the visualizer's node tags at that yield. -/
abbrev SearchYield := AgentState × List (NodeId × String)

/-- The animation bookkeeping fields of `GraphVisualizer` written by
`start_search` (lines 893-906). -/
structure AnimationControl where
  animation_states : List Snapshot
  current_state_index : Int
deriving DecidableEq, Repr

/-- The state-collection phase of `GraphVisualizer.start_search` (lines
893-906): the `for _ in self.search_generator` loop exhausts the search
generator, capturing one snapshot per yielded step, after which the
playback index is reset to `-1`. `yields` is the sequence of observation
points the generator yields; the loop body runs once per yield. -/
def start_search_collect (yields : List SearchYield) : AnimationControl :=
  { animation_states := yields.map fun y => capture_search_state y.1 y.2
    current_state_index := -1 }

/-- `GraphVisualizer.animate_next_step` (lines 974-994): advance the
playback index by one and display (observe) the snapshot there; at the end
of the state list the animation completes instead. -/
def animate_next_step (ac : AnimationControl) : AnimationControl :=
  if ac.current_state_index < (ac.animation_states.length : Int) - 1 then
    { ac with current_state_index := ac.current_state_index + 1 }
  else ac

/-- C4 as stated: one unit of search work per return of control, so at the
moment `start_search` first hands control back (its state then being
`start_search_collect yields`), at most one unit of work may have been
performed — the engine must not have run the whole search before the
caller can observe the first step. -/
def step_at_a_time_claim : Prop :=
  ∀ yields : List SearchYield,
    (start_search_collect yields).animation_states.length ≤ 1

/-- C5 as stated (the `success` / `nodes_explored` components): the
per-step snapshot contains the run's `success` flag and `nodes_explored`
count, i.e. both are recoverable from the snapshot alone. -/
def snapshot_exposes_outcome_claim : Prop :=
  ∀ a1 a2 : AgentState, ∀ ns : List (NodeId × String),
    capture_search_state a1 ns = capture_search_state a2 ns →
      a1.success = a2.success ∧ a1.nodes_explored = a2.nodes_explored

/-- The end-of-run summary built by `update_search_results` (lines
1076-1093): path cost and length are shown only on success; nodes explored
always. -/
structure ResultSummary where
  success : Bool
  path_cost : Option Int
  path_length : Option Nat
  nodes_explored : Nat
deriving DecidableEq, Repr

/-- `GraphVisualizer.update_search_results` (lines 1076-1093). -/
def update_search_results (a : AgentState) : ResultSummary :=
  if a.success then
    { success := true
      path_cost := some a.path_cost
      path_length := some a.path_found.length
      nodes_explored := a.nodes_explored }
  else
    { success := false
      path_cost := none
      path_length := none
      nodes_explored := a.nodes_explored }

/-- The configuration fields of `GraphVisualizer` consulted by the guard
section of `start_search` (lines 849-867): the node count, the source
node, and the goal list. -/
structure VisConfig where
  numNodes : Nat
  source_node : Option NodeId
  goal_nodes : List NodeId
deriving DecidableEq, Repr

/-- Outcome of the validation section of `start_search`: an `alert(...)`
followed by an early `return` (no agent created, no steps produced), or a
`SearchAgent` constructed for the source and the first goal. `raised`
stands for an exception escaping the call — no path of the guard code
produces one. -/
inductive StartOutcome where
  | alerted (msg : String)
  | agentCreated (source goal : NodeId)
  | raised (exn : String)
deriving DecidableEq, Repr

/-- The guard section of `GraphVisualizer.start_search` (lines 849-870):
validate the configuration, alerting and returning early when it is
invalid, else construct the `SearchAgent` on the first goal. -/
def start_search_guard (c : VisConfig) : StartOutcome :=
  if c.numNodes = 0 then .alerted "Please add nodes to the graph first"
  else
    match c.source_node with
    | none => .alerted "Please set a source node"
    | some s =>
      match c.goal_nodes with
      | [] => .alerted "Please set a goal node"
      | g :: _ => .agentCreated s g

/-- A run configuration whose source or goal is absent from the graph.
`delete_node` (lines 362-382) resets `source_node` to `None` and drops the
node from `goal_nodes`, so absence appears as `none` / `[]`; an empty
graph is invalid as well. -/
def invalidConfig (c : VisConfig) : Prop :=
  c.numNodes = 0 ∨ c.source_node = none ∨ c.goal_nodes = []

/-- C6 as stated: starting a run with an invalid configuration fails by
raising an `InvalidConfiguration` exception. -/
def invalid_config_raises_claim : Prop :=
  ∀ c : VisConfig, invalidConfig c →
    start_search_guard c = .raised "InvalidConfiguration"

/-!
## Lemmas about the `entry_finder` association list
-/

theorem efLookup_eq_none {ef : List (NodeId × Int × Nat)} {n : NodeId} :
    efLookup ef n = none ↔ n ∉ ef.map Prod.fst := by
  induction ef with
  | nil => simp [efLookup]
  | cons kv t ih =>
    obtain ⟨k, v⟩ := kv
    by_cases h : k = n
    · subst h
      simp [efLookup]
    · simp [efLookup, h, ih, Ne.symm h]

theorem efLookup_mem {ef : List (NodeId × Int × Nat)} {n : NodeId}
    {v : Int × Nat} (h : efLookup ef n = some v) : (n, v) ∈ ef := by
  induction ef with
  | nil => simp [efLookup] at h
  | cons kv t ih =>
    obtain ⟨k, w⟩ := kv
    by_cases hk : k = n
    · subst hk
      simp [efLookup] at h
      simp [h]
    · simp [efLookup, hk] at h
      simp [ih h]

theorem mem_efLookup {ef : List (NodeId × Int × Nat)}
    (hnd : (ef.map Prod.fst).Nodup) {n : NodeId} {v : Int × Nat}
    (h : (n, v) ∈ ef) : efLookup ef n = some v := by
  induction ef with
  | nil => simp at h
  | cons kv t ih =>
    obtain ⟨k, w⟩ := kv
    simp only [List.map_cons, List.nodup_cons] at hnd
    rcases List.mem_cons.mp h with heq | ht
    · obtain ⟨rfl, rfl⟩ := Prod.mk.injEq .. ▸ heq
      simp [efLookup]
    · have hkn : k ≠ n := by
        intro hkn
        subst hkn
        exact hnd.1 (List.mem_map.mpr ⟨(k, v), ht, rfl⟩)
      simp [efLookup, hkn, ih hnd.2 ht]

theorem key_inj {ef : List (NodeId × Int × Nat)}
    (hnd : (ef.map Prod.fst).Nodup) {n : NodeId} {v1 v2 : Int × Nat}
    (h1 : (n, v1) ∈ ef) (h2 : (n, v2) ∈ ef) : v1 = v2 := by
  have := (mem_efLookup hnd h1).symm.trans (mem_efLookup hnd h2)
  exact Option.some.inj this

theorem efErase_sublist (ef : List (NodeId × Int × Nat)) (n : NodeId) :
    List.Sublist (efErase ef n) ef := by
  induction ef with
  | nil => simp [efErase]
  | cons kv t ih =>
    obtain ⟨k, v⟩ := kv
    by_cases h : k = n
    · simp [efErase, h, List.sublist_cons_self (k, v) t]
    · simpa [efErase, h] using ih.cons₂ (k, v)

theorem efErase_keys_nodup {ef : List (NodeId × Int × Nat)}
    (hnd : (ef.map Prod.fst).Nodup) (n : NodeId) :
    ((efErase ef n).map Prod.fst).Nodup :=
  hnd.sublist ((efErase_sublist ef n).map Prod.fst)

theorem mem_efErase {ef : List (NodeId × Int × Nat)}
    (hnd : (ef.map Prod.fst).Nodup) {n : NodeId} {kv : NodeId × Int × Nat} :
    kv ∈ efErase ef n ↔ kv ∈ ef ∧ kv.1 ≠ n := by
  induction ef with
  | nil => simp [efErase]
  | cons kw t ih =>
    obtain ⟨k, w⟩ := kw
    simp only [List.map_cons, List.nodup_cons] at hnd
    by_cases h : k = n
    · subst h
      simp only [efErase, if_pos rfl]
      constructor
      · intro ht
        refine ⟨List.mem_cons_of_mem _ ht, ?_⟩
        intro hkv
        exact hnd.1 (List.mem_map.mpr ⟨kv, ht, hkv⟩)
      · rintro ⟨hmem, hne⟩
        rcases List.mem_cons.mp hmem with rfl | ht
        · exact absurd rfl hne
        · exact ht
    · simp only [efErase, if_neg h]
      constructor
      · intro hmem
        rcases List.mem_cons.mp hmem with rfl | ht
        · exact ⟨List.mem_cons_self _ _, h⟩
        · have := (ih hnd.2).mp ht
          exact ⟨List.mem_cons_of_mem _ this.1, this.2⟩
      · rintro ⟨hmem, hne⟩
        rcases List.mem_cons.mp hmem with rfl | ht
        · exact List.mem_cons_self _ _
        · exact List.mem_cons_of_mem _ ((ih hnd.2).mpr ⟨ht, hne⟩)

theorem efLookup_efErase_self {ef : List (NodeId × Int × Nat)}
    (hnd : (ef.map Prod.fst).Nodup) (n : NodeId) :
    efLookup (efErase ef n) n = none := by
  rw [efLookup_eq_none]
  intro hmem
  obtain ⟨kv, hkv, hfst⟩ := List.mem_map.mp hmem
  exact ((mem_efErase hnd).mp hkv).2 hfst

theorem efErase_length {ef : List (NodeId × Int × Nat)} {n : NodeId}
    {v : Int × Nat} (h : efLookup ef n = some v) :
    (efErase ef n).length + 1 = ef.length := by
  induction ef with
  | nil => simp [efLookup] at h
  | cons kw t ih =>
    obtain ⟨k, w⟩ := kw
    by_cases hk : k = n
    · simp [efErase, hk]
    · simp only [efLookup, if_neg hk] at h
      simp [efErase, hk, ih h]

/-!
## Lemmas about tombstoning and the live bindings of the heap
-/

theorem tombstone_map_count (c : Nat) (heap : List Entry) :
    (tombstone c heap).map Entry.count = heap.map Entry.count := by
  induction heap with
  | nil => rfl
  | cons e t ih =>
    by_cases h : e.count = c <;> simp [tombstone, h, Entry.count] at ih ⊢ <;>
      simpa [tombstone] using ih

theorem tombstone_sorted {c : Nat} {heap : List Entry}
    (hs : heap.Sorted entryLE) : (tombstone c heap).Sorted entryLE := by
  unfold tombstone
  refine List.Pairwise.map _ ?_ hs
  intro a b hab
  by_cases ha : a.count = c <;> by_cases hb : b.count = c <;>
    simpa [entryLE, ha, hb] using hab

theorem tombstone_mem_live {c : Nat} {heap : List Entry} {p : Int} {k : Nat}
    {n : NodeId} :
    (⟨p, k, Item.node n⟩ : Entry) ∈ tombstone c heap ↔
      (⟨p, k, Item.node n⟩ : Entry) ∈ heap ∧ k ≠ c := by
  unfold tombstone
  constructor
  · intro h
    obtain ⟨a, ha, hfa⟩ := List.mem_map.mp h
    by_cases hac : a.count = c
    · rw [if_pos hac] at hfa
      cases hfa
    · rw [if_neg hac] at hfa
      subst hfa
      exact ⟨ha, hac⟩
  · rintro ⟨h, hkc⟩
    refine List.mem_map.mpr ⟨_, h, ?_⟩
    simp [hkc]

theorem liveBindings_fn_eq {e : Entry} {kv : NodeId × Int × Nat}
    (h : (e.liveNode.map fun n => (n, (e.priority, e.count))) = some kv) :
    e = ⟨kv.2.1, kv.2.2, Item.node kv.1⟩ := by
  obtain ⟨n, p, c⟩ := kv
  cases hi : e.item with
  | removed => simp [Entry.liveNode, hi] at h
  | node m =>
    rw [show e.liveNode = some m by simp [Entry.liveNode, hi]] at h
    simp only [Option.map_some', Option.some.injEq] at h
    obtain ⟨rfl, hp, hc⟩ := Prod.mk.injEq .. ▸ h
    cases e
    simp_all

theorem mem_liveBindings {heap : List Entry} {n : NodeId} {p : Int} {c : Nat} :
    (n, (p, c)) ∈ liveBindings heap ↔
      (⟨p, c, Item.node n⟩ : Entry) ∈ heap := by
  unfold liveBindings
  rw [List.mem_filterMap]
  constructor
  · rintro ⟨e, he, hfe⟩
    have he2 := liveBindings_fn_eq hfe
    rwa [he2] at he
  · intro h
    exact ⟨_, h, rfl⟩

theorem liveBindings_append (l1 l2 : List Entry) :
    liveBindings (l1 ++ l2) = liveBindings l1 ++ liveBindings l2 := by
  unfold liveBindings
  exact List.filterMap_append l1 l2 _

theorem liveBindings_cons_live (p : Int) (c : Nat) (n : NodeId)
    (l : List Entry) :
    liveBindings ((⟨p, c, Item.node n⟩ : Entry) :: l) =
      (n, (p, c)) :: liveBindings l := by
  simp [liveBindings, List.filterMap_cons, Entry.liveNode]

theorem liveBindings_cons_dead (p : Int) (c : Nat) (l : List Entry) :
    liveBindings ((⟨p, c, Item.removed⟩ : Entry) :: l) = liveBindings l := by
  simp [liveBindings, List.filterMap_cons, Entry.liveNode]

theorem liveBindings_all_removed {l : List Entry}
    (h : ∀ e ∈ l, e.item = Item.removed) : liveBindings l = [] := by
  induction l with
  | nil => rfl
  | cons e t ih =>
    have he := h e (List.mem_cons_self e t)
    have : e = ⟨e.priority, e.count, Item.removed⟩ := by
      cases e
      simp_all
    rw [this, liveBindings_cons_dead]
    exact ih fun a ha => h a (List.mem_cons_of_mem e ha)

theorem liveBindings_tombstone_mem {c : Nat} {heap : List Entry}
    {kv : NodeId × Int × Nat} :
    kv ∈ liveBindings (tombstone c heap) ↔
      kv ∈ liveBindings heap ∧ kv.2.2 ≠ c := by
  obtain ⟨n, p, k⟩ := kv
  rw [mem_liveBindings, tombstone_mem_live, mem_liveBindings]

theorem mem_liveBindings_orderedInsert {e : Entry} {l : List Entry}
    {kv : NodeId × Int × Nat} :
    kv ∈ liveBindings (l.orderedInsert entryLE e) ↔
      kv ∈ liveBindings (e :: l) :=
  ((List.perm_orderedInsert entryLE e l).filterMap _).mem_iff

theorem heap_count_inj {heap : List Entry}
    (h : (heap.map Entry.count).Nodup) {e1 e2 : Entry} (h1 : e1 ∈ heap)
    (h2 : e2 ∈ heap) (hc : e1.count = e2.count) : e1 = e2 :=
  List.inj_on_of_nodup_map h h1 h2 hc

theorem liveBindings_nodup {heap : List Entry}
    (h : (heap.map Entry.count).Nodup) : (liveBindings heap).Nodup := by
  have hn : heap.Nodup := h.of_map
  unfold liveBindings
  refine List.Nodup.filterMap ?_ hn
  intro a b kv hka hkb
  rw [Option.mem_def] at hka hkb
  rw [liveBindings_fn_eq hka, liveBindings_fn_eq hkb]

theorem liveBindings_length (heap : List Entry) :
    (liveBindings heap).length = liveCount heap := by
  induction heap with
  | nil => rfl
  | cons e t ih =>
    cases hi : e.item <;>
      simp [liveBindings, liveCount, List.filterMap_cons, List.filter_cons,
        Entry.liveNode, Entry.isLive, hi] <;>
      simpa [liveBindings, liveCount] using ih

/-!
## Lemmas about the tombstone-skipping loops of `pop` and `peek`
-/

theorem popFirstLive_eq_none {l : List Entry} :
    popFirstLive l = none ↔ ∀ e ∈ l, e.item = Item.removed := by
  induction l with
  | nil => simp [popFirstLive]
  | cons e t ih =>
    cases hi : e.item with
    | removed => simp [popFirstLive, hi, ih]
    | node m => simp [popFirstLive, hi]

theorem popFirstLive_some {l : List Entry} {n : NodeId} {rest : List Entry}
    (h : popFirstLive l = some (n, rest)) :
    ∃ dead p c,
      l = dead ++ (⟨p, c, Item.node n⟩ : Entry) :: rest ∧
        ∀ e ∈ dead, e.item = Item.removed := by
  induction l generalizing rest with
  | nil => simp [popFirstLive] at h
  | cons e t ih =>
    cases hi : e.item with
    | removed =>
      rw [popFirstLive, hi] at h
      obtain ⟨dead, p, c, hl, hdead⟩ := ih h
      refine ⟨e :: dead, p, c, by rw [hl]; rfl, ?_⟩
      intro a ha
      rcases List.mem_cons.mp ha with rfl | hat
      · exact hi
      · exact hdead a hat
    | node m =>
      rw [popFirstLive, hi] at h
      obtain ⟨rfl, rfl⟩ := Prod.mk.injEq .. ▸ Option.some.inj h
      refine ⟨[], e.priority, e.count, ?_, by simp⟩
      have : e = ⟨e.priority, e.count, Item.node m⟩ := by
        cases e
        simp_all
      rw [← this]
      rfl

theorem peekAux_all_removed {l : List Entry}
    (h : ∀ e ∈ l, e.item = Item.removed) : peekAux l = (none, []) := by
  induction l with
  | nil => rfl
  | cons e t ih =>
    rw [peekAux, h e (List.mem_cons_self e t)]
    exact ih fun a ha => h a (List.mem_cons_of_mem e ha)

/-!
## Preservation of the well-formedness invariant
-/

theorem wf_init : PQ.WF PQ.init := by decide

theorem wf_clear (pq : PQ) : PQ.WF pq.clear := by
  unfold PQ.clear
  decide

theorem wf_removeEntry {pq : PQ} (wf : PQ.WF pq) {n : NodeId} {p : Int}
    {c : Nat} (h : efLookup pq.entry_finder n = some (p, c)) :
    PQ.WF (pq.removeEntry n (p, c)) := by
  obtain ⟨hs, hc, hb, hk, hef, hlive⟩ := wf
  have hmem : (n, (p, c)) ∈ pq.entry_finder := efLookup_mem h
  have hlive0 : (⟨p, c, Item.node n⟩ : Entry) ∈ pq.heap :=
    mem_liveBindings.mp (hef _ hmem)
  unfold PQ.removeEntry
  refine ⟨tombstone_sorted hs, ?_, ?_, efErase_keys_nodup hk n, ?_, ?_⟩
  · rw [tombstone_map_count]
    exact hc
  · intro e he
    have h2 : e.count ∈ (tombstone (p, c).2 pq.heap).map Entry.count :=
      List.mem_map_of_mem Entry.count he
    rw [tombstone_map_count] at h2
    obtain ⟨e0, he0, hce⟩ := List.mem_map.mp h2
    exact hce ▸ hb e0 he0
  · intro kv hkv
    obtain ⟨hkv_ef, hkey⟩ := (mem_efErase hk).mp hkv
    have hkvlive := hef kv hkv_ef
    rw [liveBindings_tombstone_mem]
    refine ⟨hkvlive, ?_⟩
    intro hcc
    obtain ⟨k, p0, c0⟩ := kv
    have hcc2 : c0 = c := hcc
    subst hcc2
    have h1 : (⟨p0, c0, Item.node k⟩ : Entry) ∈ pq.heap :=
      mem_liveBindings.mp hkvlive
    have heq := heap_count_inj hc h1 hlive0 rfl
    simp only [Entry.mk.injEq, Item.node.injEq] at heq
    exact hkey heq.2.2
  · intro kv hkv
    rw [liveBindings_tombstone_mem] at hkv
    obtain ⟨hkvl, hcc⟩ := hkv
    have hkv_ef := hlive kv hkvl
    rw [mem_efErase hk]
    refine ⟨hkv_ef, ?_⟩
    intro hkey
    obtain ⟨k, p0, c0⟩ := kv
    have hkey2 : k = n := hkey
    subst hkey2
    have heqv := key_inj hk hkv_ef hmem
    simp only [Prod.mk.injEq] at heqv
    exact hcc heqv.2

theorem wf_pushCore {pq1 : PQ} (wf1 : PQ.WF pq1) {n : NodeId}
    (hnone : efLookup pq1.entry_finder n = none) (p : Int) :
    PQ.WF ⟨pq1.heap.orderedInsert entryLE ⟨p, pq1.counter, Item.node n⟩,
      pq1.counter + 1, pq1.entry_finder ++ [(n, (p, pq1.counter))]⟩ := by
  obtain ⟨hs, hc, hb, hk, hef, hlive⟩ := wf1
  have hperm :
      List.Perm
        (pq1.heap.orderedInsert entryLE ⟨p, pq1.counter, Item.node n⟩)
        ((⟨p, pq1.counter, Item.node n⟩ : Entry) :: pq1.heap) :=
    List.perm_orderedInsert entryLE _ _
  refine ⟨List.Sorted.orderedInsert _ _ hs, ?_, ?_, ?_, ?_, ?_⟩
  · rw [List.Perm.nodup_iff (hperm.map Entry.count)]
    simp only [List.map_cons]
    rw [List.nodup_cons]
    refine ⟨?_, hc⟩
    intro hmem
    obtain ⟨e0, he0, hce⟩ := List.mem_map.mp hmem
    have hlt := hb e0 he0
    have : e0.count = pq1.counter := hce
    omega
  · intro e he
    rw [hperm.mem_iff] at he
    rcases List.mem_cons.mp he with rfl | he2
    · show pq1.counter < pq1.counter + 1
      omega
    · exact Nat.lt_succ_of_lt (hb e he2)
  · rw [List.map_append]
    have hp2 :
        List.Perm (pq1.entry_finder.map Prod.fst ++ [n])
          (n :: pq1.entry_finder.map Prod.fst) := List.perm_append_singleton _ _
    simp only [List.map_cons, List.map_nil]
    rw [List.Perm.nodup_iff hp2, List.nodup_cons]
    exact ⟨efLookup_eq_none.mp hnone, hk⟩
  · intro kv hkv
    rcases List.mem_append.mp hkv with h1 | h2
    · have hl1 := hef kv h1
      rw [mem_liveBindings_orderedInsert, liveBindings_cons_live]
      exact List.mem_cons_of_mem _ hl1
    · rw [List.mem_singleton] at h2
      subst h2
      rw [mem_liveBindings_orderedInsert, liveBindings_cons_live]
      exact List.mem_cons_self _ _
  · intro kv hkv
    rw [mem_liveBindings_orderedInsert, liveBindings_cons_live] at hkv
    rcases List.mem_cons.mp hkv with rfl | h2
    · exact List.mem_append_right _ (List.mem_singleton.mpr rfl)
    · exact List.mem_append_left _ (hlive kv h2)

theorem wf_push {pq : PQ} (wf : PQ.WF pq) (n : NodeId) (p : Int) :
    PQ.WF (pq.push n p) := by
  have hk := wf.2.2.2.1
  unfold PQ.push
  cases h : efLookup pq.entry_finder n with
  | none =>
    exact wf_pushCore wf h p
  | some pc =>
    obtain ⟨p0, c0⟩ := pc
    have wf1 := wf_removeEntry wf h
    have hnone :
        efLookup (pq.removeEntry n (p0, c0)).entry_finder n = none :=
      efLookup_efErase_self hk n
    exact wf_pushCore wf1 hnone p

theorem wf_remove {pq pq' : PQ} (wf : PQ.WF pq) {n : NodeId}
    (h : pq.remove n = Except.ok pq') : PQ.WF pq' := by
  unfold PQ.remove at h
  cases hl : efLookup pq.entry_finder n with
  | none =>
    rw [hl] at h
    cases h
  | some pc =>
    obtain ⟨p, c⟩ := pc
    rw [hl] at h
    exact (Except.ok.inj h) ▸ wf_removeEntry wf hl

theorem wf_pop {pq pq' : PQ} {n : NodeId} (wf : PQ.WF pq)
    (h : pq.pop = Except.ok (n, pq')) : PQ.WF pq' := by
  obtain ⟨hs, hc, hb, hk, hef, hlive⟩ := wf
  unfold PQ.pop at h
  cases hp : popFirstLive pq.heap with
  | none =>
    rw [hp] at h
    cases h
  | some nr =>
    obtain ⟨m, rest⟩ := nr
    rw [hp] at h
    have hmn : m = n := congrArg Prod.fst (Except.ok.inj h)
    subst hmn
    have hpq2 :
        ({ heap := rest, counter := pq.counter,
           entry_finder := efErase pq.entry_finder m } : PQ) = pq' :=
      congrArg Prod.snd (Except.ok.inj h)
    rw [← hpq2]
    obtain ⟨dead, p, c, hl, hdead⟩ := popFirstLive_some hp
    have hsubrest : List.Sublist rest pq.heap := by
      rw [hl]
      exact (List.sublist_cons_self _ rest).trans
        (List.sublist_append_right dead _)
    refine ⟨?_, ?_, ?_, efErase_keys_nodup hk m, ?_, ?_⟩
    · exact List.Pairwise.sublist hsubrest hs
    · exact hc.sublist (hsubrest.map Entry.count)
    · intro e he
      exact hb e (hsubrest.subset he)
    · intro kv hkv
      obtain ⟨hkv_ef, hkey⟩ := (mem_efErase hk).mp hkv
      have h2 := hef kv hkv_ef
      rw [hl, liveBindings_append, liveBindings_all_removed hdead,
        List.nil_append, liveBindings_cons_live] at h2
      rcases List.mem_cons.mp h2 with rfl | h3
      · exact absurd rfl hkey
      · exact h3
    · intro kv hkv
      have hinheap : kv ∈ liveBindings pq.heap := by
        rw [hl, liveBindings_append, liveBindings_all_removed hdead,
          List.nil_append, liveBindings_cons_live]
        exact List.mem_cons_of_mem _ hkv
      have hkv_ef := hlive kv hinheap
      rw [mem_efErase hk]
      refine ⟨hkv_ef, ?_⟩
      intro hkey
      obtain ⟨k, p0, c0⟩ := kv
      have hkey2 : k = m := hkey
      rw [hkey2] at hkv_ef hkv
      have hnpc_heap : (⟨p, c, Item.node m⟩ : Entry) ∈ pq.heap := by
        rw [hl]
        exact List.mem_append_right _ (List.mem_cons_self _ _)
      have hnpc_ef : (m, (p, c)) ∈ pq.entry_finder :=
        hlive _ (mem_liveBindings.mpr hnpc_heap)
      have heqv := key_inj hk hkv_ef hnpc_ef
      simp only [Prod.mk.injEq] at heqv
      obtain ⟨hp0, hc0⟩ := heqv
      rw [hp0, hc0] at hkv
      have hentry_rest : (⟨p, c, Item.node m⟩ : Entry) ∈ rest :=
        mem_liveBindings.mp hkv
      have hcnodup := hc
      rw [hl, List.map_append, List.map_cons] at hcnodup
      have hnr := List.Nodup.of_append_right hcnodup
      rw [List.nodup_cons] at hnr
      exact hnr.1 (List.mem_map_of_mem Entry.count hentry_rest)

/-!
## Support lemmas for the claims
-/

theorem efLookup_append {ef1 ef2 : List (NodeId × Int × Nat)} {n : NodeId}
    (h : efLookup ef1 n = none) :
    efLookup (ef1 ++ ef2) n = efLookup ef2 n := by
  induction ef1 with
  | nil => rfl
  | cons kv t ih =>
    obtain ⟨k, v⟩ := kv
    by_cases hk : k = n
    · rw [efLookup, if_pos hk] at h
      cases h
    · rw [efLookup, if_neg hk] at h
      rw [List.cons_append, efLookup, if_neg hk]
      exact ih h

theorem nodup_all_eq_singleton {α : Type} {l : List α} (hn : l.Nodup)
    {a : α} (ha : a ∈ l) (hall : ∀ x ∈ l, x = a) : l = [a] := by
  cases l with
  | nil => cases ha
  | cons b t =>
    have hb : b = a := hall b (List.mem_cons_self b t)
    subst hb
    rw [List.nodup_cons] at hn
    cases t with
    | nil => rfl
    | cons b2 t2 =>
      exfalso
      have : b2 = b := hall b2 (List.mem_cons_of_mem b (List.mem_cons_self b2 t2))
      exact hn.1 (this ▸ List.mem_cons_self b2 t2)

theorem no_live_of_empty {pq : PQ} (wf : PQ.WF pq) (h : pq.is_empty = true) :
    ∀ e ∈ pq.heap, e.item = Item.removed := by
  obtain ⟨-, -, -, -, -, hlive⟩ := wf
  have hef : pq.entry_finder = [] := by
    have h2 : pq.entry_finder.length = 0 := by
      unfold PQ.is_empty at h
      simpa using h
    exact List.length_eq_zero.mp h2
  intro e he
  cases hi : e.item with
  | removed => rfl
  | node n =>
    exfalso
    have hmem : (n, (e.priority, e.count)) ∈ liveBindings pq.heap := by
      rw [mem_liveBindings]
      have he2 : e = ⟨e.priority, e.count, Item.node n⟩ := by
        cases e
        simp_all
      rwa [he2] at he
    have h3 := hlive _ hmem
    rw [hef] at h3
    cases h3

theorem live_of_not_empty {pq : PQ} (wf : PQ.WF pq)
    (h : pq.is_empty = false) :
    ∃ nr, popFirstLive pq.heap = some nr := by
  cases hp : popFirstLive pq.heap with
  | some nr => exact ⟨nr, rfl⟩
  | none =>
    exfalso
    have hall := popFirstLive_eq_none.mp hp
    have hnl := liveBindings_all_removed hall
    obtain ⟨-, -, -, -, hef, -⟩ := wf
    have hnil : pq.entry_finder = [] := by
      cases hq : pq.entry_finder with
      | nil => rfl
      | cons kv t =>
        exfalso
        have h2 := hef kv (by rw [hq]; exact List.mem_cons_self _ _)
        rw [hnl] at h2
        cases h2
    unfold PQ.is_empty at h
    rw [hnil] at h
    cases h

theorem pop_min_spec {pq : PQ} (wf : PQ.WF pq) {n : NodeId}
    {rest : List Entry} (hp : popFirstLive pq.heap = some (n, rest)) :
    ∃ p c, efLookup pq.entry_finder n = some (p, c) ∧
      (⟨p, c, Item.node n⟩ : Entry) ∈ pq.heap ∧
      ∀ e ∈ pq.heap, e.isLive = true →
        p < e.priority ∨ (p = e.priority ∧ c ≤ e.count) := by
  obtain ⟨hs, hc, hb, hk, hef, hlive⟩ := wf
  obtain ⟨dead, p, c, hl, hdead⟩ := popFirstLive_some hp
  have hmemheap : (⟨p, c, Item.node n⟩ : Entry) ∈ pq.heap := by
    rw [hl]
    exact List.mem_append_right _ (List.mem_cons_self _ _)
  refine ⟨p, c, ?_, hmemheap, ?_⟩
  · exact mem_efLookup hk (hlive _ (mem_liveBindings.mpr hmemheap))
  · intro e he hel
    rw [hl] at he
    rcases List.mem_append.mp he with hdm | hem
    · exfalso
      have hrm := hdead e hdm
      unfold Entry.isLive Entry.liveNode at hel
      rw [hrm] at hel
      cases hel
    · rcases List.mem_cons.mp hem with rfl | her
      · right
        exact ⟨rfl, Nat.le_refl c⟩
      · have hs2 :
            List.Sorted entryLE ((⟨p, c, Item.node n⟩ : Entry) :: rest) := by
          rw [hl] at hs
          exact List.Pairwise.sublist (List.sublist_append_right dead _) hs
        have h4 := List.rel_of_sorted_cons hs2 e her
        unfold entryLE at h4
        exact h4

theorem queue_pushAll_items (q : Queue) (xs : List NodeId) :
    (q.pushAll xs).items = q.items ++ xs := by
  induction xs generalizing q with
  | nil => simp [Queue.pushAll]
  | cons x t ih =>
    rw [Queue.pushAll, List.foldl_cons]
    have h2 := ih (q.push x)
    rw [Queue.pushAll] at h2
    rw [h2]
    simp [Queue.push]

theorem stack_pushAll_items (s : Stack) (xs : List NodeId) :
    (s.pushAll xs).items = s.items ++ xs := by
  induction xs generalizing s with
  | nil => simp [Stack.pushAll]
  | cons x t ih =>
    rw [Stack.pushAll, List.foldl_cons]
    have h2 := ih (s.push x)
    rw [Stack.pushAll] at h2
    rw [h2]
    simp [Stack.push]

/-!
## The claims
-/

/-- C1: for every well-formed priority queue state and every node that
already has a live entry, `push(node, priority)` replaces that entry
rather than creating a duplicate: afterwards exactly one live heap entry
exists for the node, it carries the latest priority, and `entry_finder`
maps the node to the fresh entry. -/
theorem push_eq_of_found {pq : PQ} {n : NodeId} {p0 : Int} {c : Nat}
    (h : efLookup pq.entry_finder n = some (p0, c)) (p : Int) :
    pq.push n p =
      ⟨(tombstone c pq.heap).orderedInsert entryLE
          ⟨p, pq.counter, Item.node n⟩,
        pq.counter + 1,
        efErase pq.entry_finder n ++ [(n, (p, pq.counter))]⟩ := by
  unfold PQ.push
  rw [h]
  rfl

theorem push_eq_of_missing {pq : PQ} {n : NodeId}
    (h : efLookup pq.entry_finder n = none) (p : Int) :
    pq.push n p =
      ⟨pq.heap.orderedInsert entryLE ⟨p, pq.counter, Item.node n⟩,
        pq.counter + 1,
        pq.entry_finder ++ [(n, (p, pq.counter))]⟩ := by
  unfold PQ.push
  rw [h]

theorem pq_push_replaces_live_entry (pq : PQ) (n : NodeId)
    (pOld pNew : Int) (c : Nat) (wf : PQ.WF pq)
    (hfind : efLookup pq.entry_finder n = some (pOld, c)) :
    ((pq.push n pNew).heap.filter
        (fun e => e.item == Item.node n)).length = 1 ∧
    (∀ e ∈ (pq.push n pNew).heap, e.item = Item.node n →
      e.priority = pNew) ∧
    efLookup (pq.push n pNew).entry_finder n = some (pNew, pq.counter) := by
  have hk := wf.2.2.2.1
  have hlive2 := wf.2.2.2.2.2
  rw [push_eq_of_found hfind pNew]
  dsimp only
  -- no live entry for n survives the tombstoning
  have hnone : ∀ e ∈ tombstone c pq.heap, e.item ≠ Item.node n := by
    intro e he hi
    have he2 : e = ⟨e.priority, e.count, Item.node n⟩ := by
      cases e
      simp_all
    rw [he2] at he
    rw [tombstone_mem_live] at he
    have hlb : (n, (e.priority, e.count)) ∈ liveBindings pq.heap :=
      mem_liveBindings.mpr he.1
    have hpc := key_inj hk (hlive2 _ hlb) (efLookup_mem hfind)
    simp only [Prod.mk.injEq] at hpc
    exact he.2 hpc.2
  have hperm :
      List.Perm
        ((tombstone c pq.heap).orderedInsert entryLE
          ⟨pNew, pq.counter, Item.node n⟩)
        ((⟨pNew, pq.counter, Item.node n⟩ : Entry) :: tombstone c pq.heap) :=
    List.perm_orderedInsert entryLE _ _
  refine ⟨?_, ?_, ?_⟩
  · rw [List.Perm.length_eq (hperm.filter _)]
    rw [List.filter_cons_of_pos]
    · have hnil :
          (tombstone c pq.heap).filter (fun e => e.item == Item.node n) =
            [] := by
        rw [List.filter_eq_nil_iff]
        intro e he
        simp only [beq_iff_eq]
        exact hnone e he
      rw [hnil]
      rfl
    · simp
  · intro e he hi
    rw [hperm.mem_iff] at he
    rcases List.mem_cons.mp he with rfl | he2
    · rfl
    · exact absurd hi (hnone e he2)
  · rw [efLookup_append (efLookup_efErase_self hk n)]
    rw [efLookup, if_pos rfl]

/-- Witness for C1 at a concrete state: pushing `a` at priority 3 and again
at priority 7 leaves one live entry for `a`, at priority 7. -/
theorem pq_push_replaces_live_entry_witness :
    (PQ.WF (PQ.init.push "a" 3) ∧
      efLookup (PQ.init.push "a" 3).entry_finder "a" = some (3, 0)) ∧
    (((PQ.init.push "a" 3).push "a" 7).heap.filter
        (fun e => e.item == Item.node "a")).length = 1 ∧
    (∀ e ∈ ((PQ.init.push "a" 3).push "a" 7).heap,
      e.item = Item.node "a" → e.priority = 7) ∧
    efLookup ((PQ.init.push "a" 3).push "a" 7).entry_finder "a" =
      some (7, (PQ.init.push "a" 3).counter) :=
  ⟨⟨by decide, by decide⟩,
    pq_push_replaces_live_entry (PQ.init.push "a" 3) "a" 3 7 0 (by decide)
      (by decide)⟩

/-- C2: whenever a well-formed priority queue has at least one live entry,
`pop` succeeds and returns a live node whose `(priority, count)` pair is
lexicographically minimal among all live entries — minimum priority first,
ties broken by the earliest insertion sequence number — never returning a
tombstoned entry. -/
theorem pq_pop_returns_min_live (pq : PQ) (wf : PQ.WF pq)
    (hne : pq.is_empty = false) :
    ∃ n p c pq2,
      pq.pop = Except.ok (n, pq2) ∧
      efLookup pq.entry_finder n = some (p, c) ∧
      (⟨p, c, Item.node n⟩ : Entry) ∈ pq.heap ∧
      ∀ e ∈ pq.heap, e.isLive = true →
        p < e.priority ∨ (p = e.priority ∧ c ≤ e.count) := by
  obtain ⟨⟨n, rest⟩, hp⟩ := live_of_not_empty wf hne
  obtain ⟨p, c, h1, h2, h3⟩ := pop_min_spec wf hp
  have hpop : pq.pop = Except.ok
      (n, ⟨rest, pq.counter, efErase pq.entry_finder n⟩) := by
    unfold PQ.pop
    rw [hp]
  exact ⟨n, p, c, _, hpop, h1, h2, h3⟩

/-- Witness for C2: on the queue holding `a` at priority 1 (pushed last),
`b` at priority 3, and a tombstone left by the re-push of `a`, `pop`
returns `a`. -/
theorem pq_pop_returns_min_live_witness :
    (PQ.WF (((PQ.init.push "a" 5).push "b" 3).push "a" 1) ∧
      (((PQ.init.push "a" 5).push "b" 3).push "a" 1).is_empty = false) ∧
    (∃ n p c pq2,
      (((PQ.init.push "a" 5).push "b" 3).push "a" 1).pop =
        Except.ok (n, pq2) ∧
      efLookup
        (((PQ.init.push "a" 5).push "b" 3).push "a" 1).entry_finder n =
          some (p, c) ∧
      (⟨p, c, Item.node n⟩ : Entry) ∈
        (((PQ.init.push "a" 5).push "b" 3).push "a" 1).heap ∧
      ∀ e ∈ (((PQ.init.push "a" 5).push "b" 3).push "a" 1).heap,
        e.isLive = true →
          p < e.priority ∨ (p = e.priority ∧ c ≤ e.count)) :=
  ⟨⟨by decide, by decide⟩,
    pq_pop_returns_min_live _ (by decide) (by decide)⟩

/-- C3: after a successful `remove(node)` on a well-formed state, the node
is no longer a member, the size drops by one (only live entries are
counted), emptiness matches the live count, and yet the tombstoned entry
physically remains in the heap, whose length is unchanged. -/
theorem pq_remove_counts_only_live (pq pq2 : PQ) (n : NodeId) (p : Int)
    (c : Nat) (wf : PQ.WF pq)
    (hfind : efLookup pq.entry_finder n = some (p, c))
    (hrm : pq.remove n = Except.ok pq2) :
    pq2.contains n = false ∧
    pq2.size + 1 = pq.size ∧
    (pq2.is_empty = true ↔ pq.size = 1) ∧
    (⟨p, c, Item.removed⟩ : Entry) ∈ pq2.heap ∧
    pq2.heap.length = pq.heap.length := by
  have hk := wf.2.2.2.1
  have hef := wf.2.2.2.2.1
  unfold PQ.remove at hrm
  rw [hfind] at hrm
  have hpq2 : pq.removeEntry n (p, c) = pq2 := Except.ok.inj hrm
  rw [← hpq2]
  have hlen : (efErase pq.entry_finder n).length + 1 =
      pq.entry_finder.length := efErase_length hfind
  refine ⟨?_, ?_, ?_, ?_, ?_⟩
  · unfold PQ.contains PQ.removeEntry
    rw [efLookup_efErase_self hk n]
    rfl
  · exact hlen
  · unfold PQ.is_empty PQ.size PQ.removeEntry
    constructor
    · intro h
      have h2 : (efErase pq.entry_finder n).length = 0 := by simpa using h
      omega
    · intro h
      have h2 : (efErase pq.entry_finder n).length = 0 := by omega
      simp [h2]
  · unfold PQ.removeEntry
    have hmem : (⟨p, c, Item.node n⟩ : Entry) ∈ pq.heap :=
      mem_liveBindings.mp (hef _ (efLookup_mem hfind))
    refine List.mem_map.mpr ⟨⟨p, c, Item.node n⟩, hmem, ?_⟩
    simp
  · unfold PQ.removeEntry tombstone
    exact List.length_map pq.heap _

/-- Witness for C3: removing `a` from the queue `{a : 1, b : 2}` leaves a
membership-less, size-1 state whose heap still holds the tombstone. -/
theorem pq_remove_counts_only_live_witness :
    (PQ.WF ((PQ.init.push "a" 1).push "b" 2) ∧
      efLookup ((PQ.init.push "a" 1).push "b" 2).entry_finder "a" =
        some (1, 0) ∧
      ((PQ.init.push "a" 1).push "b" 2).remove "a" =
        Except.ok (((PQ.init.push "a" 1).push "b" 2).removeEntry "a" (1, 0))) ∧
    ((((PQ.init.push "a" 1).push "b" 2).removeEntry "a" (1, 0)).contains "a"
        = false ∧
      (((PQ.init.push "a" 1).push "b" 2).removeEntry "a" (1, 0)).size + 1 =
        ((PQ.init.push "a" 1).push "b" 2).size ∧
      ((((PQ.init.push "a" 1).push "b" 2).removeEntry "a" (1, 0)).is_empty
          = true ↔ ((PQ.init.push "a" 1).push "b" 2).size = 1) ∧
      (⟨1, 0, Item.removed⟩ : Entry) ∈
        (((PQ.init.push "a" 1).push "b" 2).removeEntry "a" (1, 0)).heap ∧
      (((PQ.init.push "a" 1).push "b" 2).removeEntry "a" (1, 0)).heap.length
        = ((PQ.init.push "a" 1).push "b" 2).heap.length) :=
  ⟨⟨by decide, by decide, rfl⟩,
    pq_remove_counts_only_live _ _ "a" 1 0 (by decide) (by decide) rfl⟩

/-- C9: every state reachable through the `PriorityQueue` operations
(`push`, `remove`, `pop`, `clear`) is well-formed; in such states the
number of non-tombstoned heap entries equals `len(entry_finder)`, and
`entry_finder` maps each queued node to its unique live heap entry — in
particular no node ever has two live entries simultaneously. -/
theorem pq_invariant_reachable (pq : PQ) (hr : PQ.Reachable pq) :
    PQ.WF pq ∧
    liveCount pq.heap = pq.entry_finder.length ∧
    ∀ n p c, efLookup pq.entry_finder n = some (p, c) →
      (⟨p, c, Item.node n⟩ : Entry) ∈ pq.heap ∧
      (pq.heap.filter (fun e => e.item == Item.node n)).length = 1 := by
  have wf : PQ.WF pq := by
    induction hr with
    | init => exact wf_init
    | push n p _ ih => exact wf_push ih n p
    | remove n _ h ih => exact wf_remove ih h
    | pop _ h ih => exact wf_pop ih h
    | clear _ _ => exact wf_clear _
  obtain ⟨hs, hc, hb, hk, hef, hlive⟩ := wf
  refine ⟨⟨hs, hc, hb, hk, hef, hlive⟩, ?_, ?_⟩
  · rw [← liveBindings_length]
    have hperm : List.Perm (liveBindings pq.heap) pq.entry_finder := by
      rw [List.perm_ext_iff_of_nodup (liveBindings_nodup hc)
        (List.Nodup.of_map Prod.fst hk)]
      intro kv
      exact ⟨fun h => hlive kv h, fun h => hef kv h⟩
    exact hperm.length_eq
  · intro n p c hfind
    have hmem : (⟨p, c, Item.node n⟩ : Entry) ∈ pq.heap :=
      mem_liveBindings.mp (hef _ (efLookup_mem hfind))
    refine ⟨hmem, ?_⟩
    have hsingle :
        pq.heap.filter (fun e => e.item == Item.node n) =
          [⟨p, c, Item.node n⟩] := by
      apply nodup_all_eq_singleton
      · exact (hc.of_map).filter _
      · rw [List.mem_filter]
        exact ⟨hmem, by simp⟩
      · intro x hx
        rw [List.mem_filter] at hx
        obtain ⟨hxh, hxi⟩ := hx
        simp only [beq_iff_eq] at hxi
        have hx2 : x = ⟨x.priority, x.count, Item.node n⟩ := by
          cases x
          simp_all
        have hxlb : (n, (x.priority, x.count)) ∈ liveBindings pq.heap := by
          rw [mem_liveBindings, ← hx2]
          exact hxh
        have := key_inj hk (hlive _ hxlb) (efLookup_mem hfind)
        simp only [Prod.mk.injEq] at this
        rw [hx2, this.1, this.2]
    rw [hsingle]
    rfl

/-- Witness for C9 at the reachable state `push "a" 2` of a fresh queue. -/
theorem pq_invariant_reachable_witness :
    PQ.WF (PQ.init.push "a" 2) ∧
    liveCount (PQ.init.push "a" 2).heap =
      (PQ.init.push "a" 2).entry_finder.length ∧
    ((⟨2, 0, Item.node "a"⟩ : Entry) ∈ (PQ.init.push "a" 2).heap ∧
      ((PQ.init.push "a" 2).heap.filter
        (fun e => e.item == Item.node "a")).length = 1) := by
  have h := pq_invariant_reachable (PQ.init.push "a" 2)
    (PQ.Reachable.push "a" 2 PQ.Reachable.init)
  exact ⟨h.1, h.2.1, h.2.2 "a" 2 0 (by decide)⟩

/-- C10: on a structure with nothing live to return, `pop` raises and
`peek` returns `None`: `PriorityQueue.pop` raises `KeyError` when no live
entry remains (even if tombstones linger in the heap), `Queue.pop` and
`Stack.pop` raise `IndexError` when empty, while all three `peek`s return
`None` instead of raising. -/
theorem frontier_empty_pop_raises_peek_none :
    (∀ pq : PQ, PQ.WF pq → pq.is_empty = true →
      pq.pop = Except.error PyErr.keyError ∧ (pq.peek).1 = none) ∧
    (∀ q : Queue, q.items = [] →
      q.pop = Except.error PyErr.indexError ∧ q.peek = none) ∧
    (∀ s : Stack, s.items = [] →
      s.pop = Except.error PyErr.indexError ∧ s.peek = none) := by
  refine ⟨?_, ?_, ?_⟩
  · intro pq wf h
    have hall := no_live_of_empty wf h
    constructor
    · unfold PQ.pop
      rw [popFirstLive_eq_none.mpr hall]
    · unfold PQ.peek
      rw [peekAux_all_removed hall]
  · intro q h
    unfold Queue.pop Queue.peek
    rw [h]
    exact ⟨rfl, rfl⟩
  · intro s h
    unfold Stack.pop Stack.peek
    rw [h]
    exact ⟨rfl, rfl⟩

/-- Witness for C10: a priority queue holding only a tombstone, an empty
queue and an empty stack. -/
theorem frontier_empty_pop_raises_peek_none_witness :
    ((PQ.mk [⟨1, 0, Item.removed⟩] 1 []).pop =
        Except.error PyErr.keyError ∧
      ((PQ.mk [⟨1, 0, Item.removed⟩] 1 []).peek).1 = none) ∧
    (Queue.init.pop = Except.error PyErr.indexError ∧
      Queue.init.peek = none) ∧
    (Stack.init.pop = Except.error PyErr.indexError ∧
      Stack.init.peek = none) :=
  ⟨frontier_empty_pop_raises_peek_none.1 (PQ.mk [⟨1, 0, Item.removed⟩] 1 [])
      (by decide) (by decide),
    frontier_empty_pop_raises_peek_none.2.1 Queue.init rfl,
    frontier_empty_pop_raises_peek_none.2.2 Stack.init rfl⟩

/-- C7: for every FIFO `Queue` state and every sequence of pushes, `pop`
removes and returns the earliest-pushed item still in the queue: if the
contents are `y :: t` in arrival order, `pop` returns `y` and leaves `t`. -/
theorem queue_fifo_pop (start pushed : List NodeId) (y : NodeId)
    (t : List NodeId) (h : start ++ pushed = y :: t) :
    (Queue.pushAll ⟨start⟩ pushed).pop = Except.ok (y, ⟨t⟩) := by
  unfold Queue.pop
  rw [show (Queue.pushAll ⟨start⟩ pushed).items = start ++ pushed from
    queue_pushAll_items ⟨start⟩ pushed, h]

/-- Witness for C7: pushing `x`, `y`, `z` onto an empty queue and popping
returns `x`, the earliest push. -/
theorem queue_fifo_pop_witness :
    ([] ++ ["x", "y", "z"] = "x" :: ["y", "z"]) ∧
    (Queue.pushAll ⟨[]⟩ ["x", "y", "z"]).pop =
      Except.ok ("x", ⟨["y", "z"]⟩) :=
  ⟨rfl, queue_fifo_pop [] ["x", "y", "z"] "x" ["y", "z"] rfl⟩

/-- C8: for every LIFO `Stack` state and every sequence of pushes, `pop`
removes and returns the most-recently-pushed item still in the stack: if
the contents are `t ++ [y]` in arrival order, `pop` returns `y` and leaves
`t`. -/
theorem stack_lifo_pop (start pushed : List NodeId) (y : NodeId)
    (t : List NodeId) (h : start ++ pushed = t ++ [y]) :
    (Stack.pushAll ⟨start⟩ pushed).pop = Except.ok (y, ⟨t⟩) := by
  unfold Stack.pop
  rw [show (Stack.pushAll ⟨start⟩ pushed).items = start ++ pushed from
    stack_pushAll_items ⟨start⟩ pushed, h]
  rw [List.getLast?_concat, List.dropLast_concat]

/-- Witness for C8: pushing `x`, `y`, `z` onto an empty stack and popping
returns `z`, the latest push. -/
theorem stack_lifo_pop_witness :
    ([] ++ ["x", "y", "z"] = ["x", "y"] ++ ["z"]) ∧
    (Stack.pushAll ⟨[]⟩ ["x", "y", "z"]).pop =
      Except.ok ("z", ⟨["x", "y"]⟩) :=
  ⟨rfl, stack_lifo_pop [] ["x", "y", "z"] "z" ["x", "y"] rfl⟩

/-- Counterexample to C4 as stated: for a run whose generator yields two
steps, `start_search` has already performed both units of search work by
the time it first returns control — the whole search runs before the
caller can observe any step. -/
theorem start_search_not_step_at_a_time : ¬ step_at_a_time_claim := by
  intro h
  have h2 := h [(⟨[], [], [], [], ⟨0, 0, 0⟩, false, 0, 0⟩, []),
    (⟨["v"], [], [], [], ⟨0, 0, 0⟩, false, 0, 0⟩, [])]
  exact absurd h2 (by decide)

/-- C4 amended: each advance of the search generator is one unit of work,
but `start_search` exhausts the generator eagerly, capturing one snapshot
per yielded step before the caller observes anything: when it returns,
`animation_states` holds every step's snapshot while the playback index is
still `-1`; the first observation (`animate_next_step`) then merely moves
the index to snapshot 0 of the already-completed run. -/
theorem start_search_collects_all_steps_before_observation
    (yields : List SearchYield) :
    (start_search_collect yields).animation_states.length = yields.length ∧
    (start_search_collect yields).current_state_index = -1 ∧
    (yields ≠ [] →
      (animate_next_step (start_search_collect yields)).current_state_index
        = 0) := by
  refine ⟨by simp [start_search_collect], rfl, ?_⟩
  intro hne
  have hlen : 0 < yields.length := List.length_pos.mpr hne
  unfold animate_next_step
  rw [if_pos]
  · show (-1 : Int) + 1 = 0
    norm_num
  · show (-1 : Int) <
      ((start_search_collect yields).animation_states.length : Int) - 1
    have h2 : (start_search_collect yields).animation_states.length =
        yields.length := by simp [start_search_collect]
    rw [h2]
    omega

/-- Witness for the amended C4 at a one-step run. -/
theorem start_search_collects_all_steps_witness :
    ((start_search_collect [(⟨[], [], [], [], ⟨0, 0, 0⟩, false, 0, 0⟩, [])]
        ).animation_states.length = 1 ∧
      (start_search_collect [(⟨[], [], [], [], ⟨0, 0, 0⟩, false, 0, 0⟩, [])]
        ).current_state_index = -1 ∧
      ([(⟨[], [], [], [], ⟨0, 0, 0⟩, false, 0, 0⟩, [])] ≠
          ([] : List SearchYield) →
        (animate_next_step (start_search_collect
          [(⟨[], [], [], [], ⟨0, 0, 0⟩, false, 0, 0⟩, [])]
          )).current_state_index = 0)) :=
  start_search_collects_all_steps_before_observation
    [(⟨[], [], [], [], ⟨0, 0, 0⟩, false, 0, 0⟩, [])]

/-- Counterexample to C5 as stated: two agent states that differ in
`success` and `nodes_explored` produce identical snapshots, so the
per-step snapshot cannot contain those fields. -/
theorem snapshot_lacks_outcome_fields : ¬ snapshot_exposes_outcome_claim := by
  intro h
  have h2 := h ⟨[], [], [], [], ⟨0, 0, 0⟩, false, 0, 0⟩
    ⟨[], [], [], [], ⟨0, 0, 0⟩, true, 0, 5⟩ [] rfl
  exact absurd h2.1 (by decide)

/-- C5 amended: the per-step snapshot consists of exactly the fields
`fringe`, `visited`, `traversal`, `path`, `node_states` and
`current_info` (`{g, h, f}`); `success` and `nodes_explored` are not part
of it, and are read off the agent only by `update_search_results` once the
animation completes. -/
theorem snapshot_fields_exact :
    (∀ a1 a2 : AgentState, ∀ ns1 ns2 : List (NodeId × String),
      capture_search_state a1 ns1 = capture_search_state a2 ns2 ↔
        (a1.fringe_list = a2.fringe_list ∧
          a1.visited_list = a2.visited_list ∧
          a1.traversal_array = a2.traversal_array ∧
          a1.path_found = a2.path_found ∧
          ns1 = ns2 ∧
          a1.current_node_info = a2.current_node_info)) ∧
    (∀ a : AgentState, (update_search_results a).success = a.success ∧
      (update_search_results a).nodes_explored = a.nodes_explored) := by
  constructor
  · intro a1 a2 ns1 ns2
    unfold capture_search_state
    rw [Snapshot.mk.injEq]
  · intro a
    cases ha : a.success <;> simp [update_search_results, ha]

/-- Counterexample to C6 as stated: on the configuration with one node and
no source set, `start_search` alerts `Please set a source node` and
returns — it does not raise an `InvalidConfiguration` exception (no such
exception exists in the code). -/
theorem invalid_config_does_not_raise : ¬ invalid_config_raises_claim := by
  intro h
  have h2 := h ⟨1, none, []⟩ (Or.inr (Or.inl rfl))
  exact absurd h2 (by decide)

/-- C6 amended: `start_search` rejects a configuration with no nodes, no
source, or no goals before constructing the `SearchAgent`: it shows an
alert and returns early, so no search steps are produced — but the
rejection is an alert plus a normal return, not an `InvalidConfiguration`
exception. -/
theorem invalid_config_alerts_and_returns (c : VisConfig)
    (h : invalidConfig c) :
    (∃ msg, start_search_guard c = StartOutcome.alerted msg) ∧
    (∀ s g, start_search_guard c ≠ StartOutcome.agentCreated s g) ∧
    (∀ exn, start_search_guard c ≠ StartOutcome.raised exn) := by
  unfold start_search_guard
  by_cases h0 : c.numNodes = 0
  · rw [if_pos h0]
    exact ⟨⟨_, rfl⟩, by simp, by simp⟩
  · rw [if_neg h0]
    cases hs : c.source_node with
    | none => exact ⟨⟨_, rfl⟩, by simp, by simp⟩
    | some s =>
      cases hg : c.goal_nodes with
      | nil => exact ⟨⟨_, rfl⟩, by simp, by simp⟩
      | cons g gs =>
        exfalso
        rcases h with h | h | h
        · exact h0 h
        · rw [hs] at h
          cases h
        · rw [hg] at h
          cases h

/-- Witness for the amended C6: one node, source unset. -/
theorem invalid_config_alerts_and_returns_witness :
    invalidConfig ⟨1, none, []⟩ ∧
    ((∃ msg, start_search_guard ⟨1, none, []⟩ =
        StartOutcome.alerted msg) ∧
      (∀ s g, start_search_guard ⟨1, none, []⟩ ≠
        StartOutcome.agentCreated s g) ∧
      (∀ exn, start_search_guard ⟨1, none, []⟩ ≠
        StartOutcome.raised exn)) :=
  ⟨Or.inr (Or.inl rfl),
    invalid_config_alerts_and_returns ⟨1, none, []⟩ (Or.inr (Or.inl rfl))⟩
